import Mathlib

/-!
Verification of the markdown/image reconciliation and packaging core of the
Docmost markdown converter (src/converter_ui/app/utils.py).

Strings are modelled as `List Char`, binary data as `List Nat` (byte values).
The Python regular-expression passes of clean_markdown and the image-link
substitution of create_docmost_zip are translated into executable structural
recursions that implement the exact leftmost, lazy/greedy backtracking
semantics of the patterns used by the source:

  ^---\n.*?\n---\n    (DOTALL)      frontmatter strip
  \n\x7b3,\x7d          (a run of 3+) blank-line collapse
  ^(#+)([^ \n])       (MULTILINE)   heading-space fix
  <[^>]+>                            tag strip
  !\[(.*?)\]\((.*?)\)                 image reference scan

The fallible parts (base64.b64decode raising binascii.Error) are modelled
with Option: a `none` result of create_docmost_zip models the Python
exception escaping the call, so no archive is produced.
-/

/-- Whitespace stripped by Python str.strip() (ASCII range, which is all the
source ever feeds it). -/
def pyWs (c : Char) : Bool :=
  c == ' ' || c == '\t' || c == '\n' || c == '\r' || c == '\x0b' || c == '\x0c'

/-- Python str.strip(): remove leading and trailing whitespace. -/
def pstrip (s : List Char) : List Char :=
  ((s.dropWhile pyWs).reverse.dropWhile pyWs).reverse

/-- Scan for the first position where the closing fence "\n---\n" of a YAML
frontmatter block starts (the lazy .*? of the frontmatter pattern stops at the
leftmost such position); returns the text after the fence. -/
def findClose : List Char → Option (List Char)
  | [] => none
  | c :: r =>
    if c = '\n' ∧ r.take 4 = ['-', '-', '-', '\n'] then some (r.drop 4)
    else findClose r

/-- re.sub of pattern ^---\n.*?\n---\n with empty replacement (DOTALL): drop a frontmatter
block anchored at the very start of the text, with the lazy body ending at the
first closing fence; if the opening or closing fence is absent the text is
unchanged. -/
def dropFrontmatter (s : List Char) : List Char :=
  if s.take 4 = ['-', '-', '-', '\n'] then
    match findClose (s.drop 4) with
    | some rest => rest
    | none => s
  else s

/-- Worker for the blank-line collapse: n counts the pending run of
consecutive newlines already consumed; a run of three or more is emitted as
exactly two. -/
def collapseGo : Nat → List Char → List Char
  | n, [] => List.replicate (min n 2) '\n'
  | n, c :: r =>
    if c = '\n' then collapseGo (n + 1) r
    else List.replicate (min n 2) '\n' ++ c :: collapseGo 0 r

/-- re.sub of pattern \n\x7b3,\x7d with replacement \n\n: collapse every run of three or more
newlines to exactly two. -/
def collapseNl (s : List Char) : List Char :=
  collapseGo 0 s

/-- Backtracked emission of a line-start run of j '#' characters that is
followed by space, newline, or end of line: for j >= 2 the greedy group
gives one '#' back and the substitution \1 \2 turns the run into
j-1 hash marks, a space, and the final '#'. A single '#' cannot backtrack, so it
is left alone. -/
def fhEnd (j : Nat) : List Char :=
  if 2 ≤ j then List.replicate (j - 1) '#' ++ [' ', '#'] else List.replicate j '#'

/-- State machine for re.sub of pattern ^(#+)([^ \n]) with replacement \1 \2 (MULTILINE).
State some j: at a line start, j '#' characters consumed and pending.
State none: inside a line, past any possible match. -/
def fhGo : Option Nat → List Char → List Char
  | none, [] => []
  | none, c :: r => c :: fhGo (if c = '\n' then some 0 else none) r
  | some j, [] => fhEnd j
  | some j, c :: r =>
    if c = '#' then fhGo (some (j + 1)) r
    else if j = 0 then c :: fhGo (if c = '\n' then some 0 else none) r
    else if c = ' ' ∨ c = '\n' then
      fhEnd j ++ c :: fhGo (if c = '\n' then some 0 else none) r
    else
      List.replicate j '#' ++ ' ' :: c :: fhGo none r

/-- re.sub of pattern ^(#+)([^ \n]) with replacement \1 \2 (MULTILINE): insert a space
between a heading marker at line start and what follows it, with the
backtracking behaviour of the greedy (#+) group. -/
def fixHeadings (s : List Char) : List Char :=
  fhGo (some 0) s

/-- State machine for re.sub of pattern <[^>]+> with empty replacement. State some buf: an unclosed
'<' was seen and buf holds the characters read since (in reverse); they are
dropped if a '>' arrives after at least one buffered character, re-emitted
verbatim if the text ends first, and "<>" with nothing between never
matches. -/
def shGo : Option (List Char) → List Char → List Char
  | none, [] => []
  | none, c :: r => if c = '<' then shGo (some []) r else c :: shGo none r
  | some buf, [] => '<' :: buf.reverse
  | some buf, c :: r =>
    if c = '>' then
      if buf = [] then '<' :: '>' :: shGo none r else shGo none r
    else shGo (some (c :: buf)) r

/-- re.sub of pattern <[^>]+> with empty replacement: remove every angle-bracket tag construct. -/
def stripHtml (s : List Char) : List Char :=
  shGo none s

/-- clean_markdown from src/converter_ui/app/utils.py: frontmatter strip, then
blank-line collapse, then heading-space fix, then tag strip, then trim. -/
def clean_markdown (s : List Char) : List Char :=
  pstrip (stripHtml (fixHeadings (collapseNl (dropFrontmatter s))))

/-- Value of a character in the standard base64 alphabet. -/
def b64val (c : Char) : Option Nat :=
  if 'A' ≤ c ∧ c ≤ 'Z' then some (c.toNat - 65)
  else if 'a' ≤ c ∧ c ≤ 'z' then some (c.toNat - 97 + 26)
  else if '0' ≤ c ∧ c ≤ '9' then some (c.toNat - 48 + 52)
  else if c = '+' then some 62
  else if c = '/' then some 63
  else none

/-- Decode a list of 6-bit values into bytes; p is the number of padding ( = ) characters available to complete a trailing partial group. A
trailing group of one value, or of two or three values with insufficient
padding, is binascii.Error, modelled as none. -/
def b64groups : List Nat → Nat → Option (List Nat)
  | [], _ => some []
  | [_], _ => none
  | [a, b], p => if 2 ≤ p then some [4 * a + b / 16] else none
  | [a, b, c], p => if 1 ≤ p then some [4 * a + b / 16, 16 * (b % 16) + c / 4] else none
  | a :: b :: c :: d :: r, p =>
    (b64groups r p).map fun bs =>
      (4 * a + b / 16) :: (16 * (b % 16) + c / 4) :: (64 * (c % 4) + d) :: bs

/-- base64.b64decode (validate=False) as used by create_docmost_zip:
characters outside the alphabet are discarded, data runs up to the first
the padding character, and incorrect padding raises binascii.Error (none here). -/
def b64decode (s : List Char) : Option (List Nat) :=
  let cs := s.filter fun c => (b64val c).isSome || c == '='
  let data := cs.takeWhile (fun c => c ≠ '=')
  let pads := ((cs.dropWhile fun c => c ≠ '=').takeWhile fun c => c = '=').length
  b64groups (data.filterMap b64val) pads

/-- Python str.split on the dot character (always nonempty). -/
def splitDot : List Char → List (List Char)
  | [] => [[]]
  | c :: r =>
    if c = '.' then [] :: splitDot r
    else
      match splitDot r with
      | [] => [[c]]
      | a :: as => (c :: a) :: as

/-- The expression original_filename.split(dot)[-1] from replace_link: the extension is the
last dot-separated segment of the filename (the whole filename when it
contains no dot). -/
def extOf (f : List Char) : List Char :=
  (splitDot f).getLastD []

/-- Python f-string zero padding to width 3 (f"image_{n:03d}"). -/
def pad3 (n : Nat) : List Char :=
  let ds := Nat.toDigits 10 n
  List.replicate (3 - ds.length) '0' ++ ds

/-- Canonical sequential image filename f"image_{n:03d}.{ext}". -/
def imageName (n : Nat) (ext : List Char) : List Char :=
  "image_".data ++ pad3 n ++ '.' :: ext

/-- One element of the images list handed to create_docmost_zip: a dict with
keys filename and content_base64. -/
structure ImageRecord where
  filename : List Char
  content_base64 : List Char
deriving DecidableEq

/-- An archive member: (entry name, entry bytes). -/
abbrev Entry := List Char × List Nat

/-- The body of replace_link: given the alt text of the match and the running
cursor current_image_idx, either consume the next supplied record (deriving
the extension from its filename, decoding its base64 content — a decode
failure is the Python exception, none) or, with the record list exhausted,
emit the MISSING_IMAGE sentinel. Returns (replacement text, new cursor,
entries added to final_images). -/
def replace_link (images : List ImageRecord) (idx : Nat) (alt : List Char) :
    Option (List Char × Nat × List Entry) :=
  if h : idx < images.length then
    let img := images.get ⟨idx, h⟩
    let ext := extOf img.filename
    let name := imageName (idx + 1) ext
    match b64decode img.content_base64 with
    | none => none
    | some bytes =>
      some ('!' :: '[' :: (alt ++ ']' :: '(' :: ("images/".data ++ name ++ [')'])),
            idx + 1, [(name, bytes)])
  else
    some ('!' :: '[' :: (alt ++ ']' :: '(' :: ("MISSING_IMAGE".data ++ [')'])), idx, [])

/-- Lazy target group of the pattern !\[(.*?)\]\((.*?)\): the shortest run of
non-newline characters up to a closing parenthesis. -/
def matchTarget : List Char → Option (List Char × List Char)
  | [] => none
  | c :: r =>
    if c = ')' then some ([], r)
    else if c = '\n' then none
    else (matchTarget r).map fun p => (c :: p.1, p.2)

/-- Lazy alt group: the shortest run of non-newline characters followed by
"](" after which the target group also matches; on target failure the alt
group extends past that "](" (backtracking). Returns (alt, target, rest). -/
def matchAlt : List Char → Option (List Char × List Char × List Char)
  | [] => none
  | c :: r =>
    if c = '\n' then none
    else if c = ']' then
      if r.head? = some '(' then
        match matchTarget r.tail with
        | some (t, rest) => some ([], t, rest)
        | none => (matchAlt r).map fun p => (']' :: p.1, p.2)
      else (matchAlt r).map fun p => (']' :: p.1, p.2)
    else (matchAlt r).map fun p => (c :: p.1, p.2)

/-- Leftmost match of the image-reference pattern !\[(.*?)\]\((.*?)\).
Returns (text before the match, alt, target, text after the match). -/
def findImgLink : List Char → Option (List Char × List Char × List Char × List Char)
  | [] => none
  | c :: r =>
    if c = '!' then
      if r.head? = some '[' then
        match matchAlt r.tail with
        | some (a, t, rest) => some ([], a, t, rest)
        | none => (findImgLink r).map fun p => ('!' :: p.1, p.2)
      else (findImgLink r).map fun p => ('!' :: p.1, p.2)
    else (findImgLink r).map fun p => (c :: p.1, p.2)

/-- img_link_pattern.sub(replace_link, s): repeatedly take the leftmost
remaining match, run replace_link on it, and continue after the match,
threading the cursor and the accumulated final_images entries. A none from
replace_link (base64 failure) aborts the whole substitution, as the Python
exception would. Structural fuel: each match consumes at least five
characters, so any fuel above the text length is inexhaustible; the fuel-0
fallback coincides with the no-match case. -/
def subLinksF (images : List ImageRecord) : Nat → List Char → Nat →
    Option (List Char × Nat × List Entry)
  | 0, s, idx => some (s, idx, [])
  | fuel + 1, s, idx =>
    match findImgLink s with
    | none => some (s, idx, [])
    | some (pre, alt, _t, rest) =>
      match replace_link images idx alt with
      | none => none
      | some (rep, idx', es) =>
        (subLinksF images fuel rest idx').map fun q =>
          (pre ++ rep ++ q.1, q.2.1, es ++ q.2.2)

/-- The rewriting stage of create_docmost_zip: new_markdown and final_images
(in insertion order), or none when a base64 decode raised. -/
def rewriteLinks (s : List Char) (images : List ImageRecord) :
    Option (List Char × List Entry) :=
  (subLinksF images (s.length + 1) s 0).map fun q => (q.1, q.2.2)

/-- The list of image-reference matches of the pattern in a text, in
left-to-right order, each as (preceding text, alt, target), together with the
text after the last match. This is the decomposition the substitution
traverses. -/
def scanLinksF : Nat → List Char → List (List Char × List Char × List Char) × List Char
  | 0, s => ([], s)
  | fuel + 1, s =>
    match findImgLink s with
    | none => ([], s)
    | some (pre, alt, t, rest) =>
      let q := scanLinksF fuel rest
      ((pre, alt, t) :: q.1, q.2)

/-- All image-reference matches of a text (inexhaustible fuel). -/
def scanLinks (s : List Char) : List (List Char × List Char × List Char) × List Char :=
  scanLinksF (s.length + 1) s

/-- UTF-8 encoding of one character. -/
def utf8Bytes (c : Char) : List Nat :=
  let n := c.toNat
  if n < 128 then [n]
  else if n < 2048 then [192 + n / 64, 128 + n % 64]
  else if n < 65536 then [224 + n / 4096, 128 + n / 64 % 64, 128 + n % 64]
  else [240 + n / 262144, 128 + n / 4096 % 64, 128 + n / 64 % 64, 128 + n % 64]

/-- UTF-8 encoding of a text, as zipfile writestr applies to document.md. -/
def utf8Encode (s : List Char) : List Nat :=
  (s.map utf8Bytes).flatten

/-- The archive-writing block of create_docmost_zip: the archive is the
ordered list of its entries, document.md (UTF-8 markdown) first, then one
entry images/name per final_images item in insertion order. -/
def packZip (md : List Char) (m : List Entry) : List Entry :=
  ("document.md".data, utf8Encode md) :: m.map fun e => ("images/".data ++ e.1, e.2)

/-- create_docmost_zip from src/converter_ui/app/utils.py: rewrite the image
references, clean the markdown, and pack the archive; none models the
function raising (binascii.Error from a bad content_base64), in which case
no archive is produced. -/
def create_docmost_zip (markdown_content : List Char) (images : List ImageRecord) :
    Option (List Entry) :=
  match rewriteLinks markdown_content images with
  | none => none
  | some (md, m) => some (packZip (clean_markdown md) m)

/-- A well-shaped single image reference followed by arbitrary text, used to
state per-reference facts: the exact text "![alt](target)rest". -/
def imgRef (alt target rest : List Char) : List Char :=
  '!' :: '[' :: (alt ++ ']' :: '(' :: (target ++ ')' :: rest))

/-- The target the rewriter assigns to the reference at (0-based) position i:
the canonical relative path when a supplied record is consumed, the sentinel
once the records are exhausted. -/
def linkTarget (images : List ImageRecord) (i : Nat) : List Char :=
  if h : i < images.length then
    "images/".data ++ imageName (i + 1) (extOf (images.get ⟨i, h⟩).filename)
  else
    "MISSING_IMAGE".data

/-- The rewritten text of the (0-based) i-th match (pre, alt, target). -/
def mkRefOut (images : List ImageRecord) (pr : Nat × List Char × List Char × List Char) :
    List Char :=
  pr.2.1 ++ '!' :: '[' :: (pr.2.2.1 ++ ']' :: '(' :: (linkTarget images pr.1 ++ [')']))

/-- The final_images entry produced for the i-th consumed record. -/
def entOf (images : List ImageRecord) (i : Nat) : Entry :=
  (imageName (i + 1) (extOf (images.getD i ⟨[], []⟩).filename),
   (b64decode (images.getD i ⟨[], []⟩).content_base64).getD [])

theorem matchTarget_decomp : ∀ s t r, matchTarget s = some (t, r) → s = t ++ ')' :: r := by
  intro s
  induction s with
  | nil => intro t r h; simp [matchTarget] at h
  | cons c cs ih =>
    intro t r h
    by_cases hp : c = ')'
    · subst hp
      simp [matchTarget] at h
      simp [← h.1, ← h.2]
    · by_cases hn : c = '\n'
      · subst hn; simp [matchTarget] at h
      · simp only [matchTarget, if_neg hp, if_neg hn] at h
        cases hq : matchTarget cs with
        | none => rw [hq] at h; simp at h
        | some q =>
          rw [hq] at h
          obtain ⟨t', r'⟩ := q
          simp only [Option.map_some', Option.some.injEq, Prod.mk.injEq] at h
          obtain ⟨rfl, rfl⟩ := h
          simp [ih _ _ hq]

theorem matchAlt_decomp : ∀ s a t r, matchAlt s = some (a, t, r) →
    s = a ++ ']' :: '(' :: (t ++ ')' :: r) := by
  intro s
  induction s with
  | nil => intro a t r h; simp [matchAlt] at h
  | cons c cs ih =>
    intro a t r h
    by_cases hn : c = '\n'
    · subst hn; simp [matchAlt] at h
    · by_cases hb : c = ']'
      · subst hb
        by_cases hh : cs.head? = some '('
        · simp only [matchAlt, if_neg hn, if_pos rfl, if_pos hh] at h
          have hcs : cs = '(' :: cs.tail := by
            cases cs with
            | nil => simp at hh
            | cons x xs => simp only [List.head?_cons, Option.some.injEq] at hh; simp [hh]
          cases hmt : matchTarget cs.tail with
          | some p =>
            obtain ⟨t0, r0⟩ := p
            simp only [hmt, Option.some.injEq, Prod.mk.injEq] at h
            obtain ⟨rfl, rfl, rfl⟩ := h
            rw [hcs, matchTarget_decomp _ _ _ hmt]
            simp
          | none =>
            simp only [hmt] at h
            cases hq : matchAlt cs with
            | none => rw [hq] at h; simp at h
            | some q =>
              rw [hq] at h
              obtain ⟨a', t', r'⟩ := q
              simp only [Option.map_some', Option.some.injEq, Prod.mk.injEq] at h
              obtain ⟨rfl, rfl, rfl⟩ := h
              simp [ih _ _ _ hq]
        · simp only [matchAlt, if_neg hn, if_pos rfl, if_neg hh] at h
          cases hq : matchAlt cs with
          | none => rw [hq] at h; simp at h
          | some q =>
            rw [hq] at h
            obtain ⟨a', t', r'⟩ := q
            simp only [Option.map_some', Option.some.injEq, Prod.mk.injEq] at h
            obtain ⟨rfl, rfl, rfl⟩ := h
            simp [ih _ _ _ hq]
      · simp only [matchAlt, if_neg hn, if_neg hb] at h
        cases hq : matchAlt cs with
        | none => rw [hq] at h; simp at h
        | some q =>
          rw [hq] at h
          obtain ⟨a', t', r'⟩ := q
          simp only [Option.map_some', Option.some.injEq, Prod.mk.injEq] at h
          obtain ⟨rfl, rfl, rfl⟩ := h
          simp [ih _ _ _ hq]

theorem findImgLink_decomp : ∀ s p a t r, findImgLink s = some (p, a, t, r) →
    s = p ++ imgRef a t r := by
  intro s
  induction s with
  | nil => intro p a t r h; simp [findImgLink] at h
  | cons c cs ih =>
    intro p a t r h
    by_cases he : c = '!'
    · subst he
      by_cases hh : cs.head? = some '['
      · simp only [findImgLink, if_pos rfl, if_pos hh] at h
        have hcs : cs = '[' :: cs.tail := by
          cases cs with
          | nil => simp at hh
          | cons x xs => simp only [List.head?_cons, Option.some.injEq] at hh; simp [hh]
        cases hma : matchAlt cs.tail with
        | some q =>
          obtain ⟨a0, t0, r0⟩ := q
          simp only [hma, Option.some.injEq, Prod.mk.injEq] at h
          obtain ⟨rfl, rfl, rfl, rfl⟩ := h
          rw [hcs, matchAlt_decomp _ _ _ _ hma]
          simp [imgRef]
        | none =>
          simp only [hma] at h
          cases hq : findImgLink cs with
          | none => rw [hq] at h; simp at h
          | some q =>
            rw [hq] at h
            obtain ⟨p', a', t', r'⟩ := q
            simp only [Option.map_some', Option.some.injEq, Prod.mk.injEq] at h
            obtain ⟨rfl, rfl, rfl, rfl⟩ := h
            simp [ih _ _ _ _ hq]
      · simp only [findImgLink, if_pos rfl, if_neg hh] at h
        cases hq : findImgLink cs with
        | none => rw [hq] at h; simp at h
        | some q =>
          rw [hq] at h
          obtain ⟨p', a', t', r'⟩ := q
          simp only [Option.map_some', Option.some.injEq, Prod.mk.injEq] at h
          obtain ⟨rfl, rfl, rfl, rfl⟩ := h
          simp [ih _ _ _ _ hq]
    · simp only [findImgLink, if_neg he] at h
      cases hq : findImgLink cs with
      | none => rw [hq] at h; simp at h
      | some q =>
        rw [hq] at h
        obtain ⟨p', a', t', r'⟩ := q
        simp only [Option.map_some', Option.some.injEq, Prod.mk.injEq] at h
        obtain ⟨rfl, rfl, rfl, rfl⟩ := h
        simp [ih _ _ _ _ hq]

theorem matchTarget_complete : ∀ t r, '\n' ∉ t → ')' ∉ t →
    matchTarget (t ++ ')' :: r) = some (t, r) := by
  intro t
  induction t with
  | nil => intro r _ _; simp [matchTarget]
  | cons c cs ih =>
    intro r h1 h2
    simp only [List.mem_cons, not_or] at h1 h2
    have hp : c ≠ ')' := fun h => h2.1 h.symm
    have hn : c ≠ '\n' := fun h => h1.1 h.symm
    simp [matchTarget, hp, hn, ih r h1.2 h2.2]

theorem matchAlt_complete : ∀ a t r, '\n' ∉ a → ']' ∉ a → '\n' ∉ t → ')' ∉ t →
    matchAlt (a ++ ']' :: '(' :: (t ++ ')' :: r)) = some (a, t, r) := by
  intro a
  induction a with
  | nil =>
    intro t r _ _ h3 h4
    simp [matchAlt, matchTarget_complete t r h3 h4]
  | cons c cs ih =>
    intro t r h1 h2 h3 h4
    simp only [List.mem_cons, not_or] at h1 h2
    have hn : c ≠ '\n' := fun h => h1.1 h.symm
    have hb : c ≠ ']' := fun h => h2.1 h.symm
    simp [matchAlt, hn, hb, ih t r h1.2 h2.2 h3 h4]

theorem findImgLink_complete : ∀ a t r, '\n' ∉ a → ']' ∉ a → '\n' ∉ t → ')' ∉ t →
    findImgLink (imgRef a t r) = some ([], a, t, r) := by
  intro a t r h1 h2 h3 h4
  simp [imgRef, findImgLink, matchAlt_complete a t r h1 h2 h3 h4]

theorem replace_link_exhausted (images : List ImageRecord) (idx : Nat) (alt : List Char)
    (h : images.length ≤ idx) :
    replace_link images idx alt = some (imgRef alt "MISSING_IMAGE".data [], idx, []) := by
  rw [replace_link, dif_neg (by omega)]
  simp [imgRef]

theorem replace_link_consume (images : List ImageRecord) (idx : Nat) (alt : List Char)
    (h : idx < images.length) (bs : List Nat)
    (hdec : b64decode (images.get ⟨idx, h⟩).content_base64 = some bs) :
    replace_link images idx alt
      = some (imgRef alt
            ("images/".data ++ imageName (idx + 1) (extOf (images.get ⟨idx, h⟩).filename)) [],
          idx + 1,
          [(imageName (idx + 1) (extOf (images.get ⟨idx, h⟩).filename), bs)]) := by
  rw [replace_link, dif_pos h]
  rw [List.get_eq_getElem] at hdec
  simp [hdec, imgRef]

theorem replace_link_fail (images : List ImageRecord) (idx : Nat) (alt : List Char)
    (h : idx < images.length)
    (hdec : b64decode (images.get ⟨idx, h⟩).content_base64 = none) :
    replace_link images idx alt = none := by
  rw [replace_link, dif_pos h]
  rw [List.get_eq_getElem] at hdec
  simp [hdec]

theorem subLinksF_nomatch (images : List ImageRecord) (s : List Char) (idx : Nat)
    (h : findImgLink s = none) :
    ∀ fuel, subLinksF images fuel s idx = some (s, idx, []) := by
  intro fuel
  cases fuel with
  | zero => rfl
  | succ n => simp [subLinksF, h]

/-- Claim C6: for every markdown input containing zero image references
(the pattern has no match), regardless of the supplied records, the rewriting
stage returns the input unchanged with an empty image mapping, and the
archive consists of exactly one entry, document.md, holding the UTF-8
sanitized input. -/
theorem zero_refs_archive (s : List Char) (images : List ImageRecord)
    (h : findImgLink s = none) :
    rewriteLinks s images = some (s, []) ∧
    create_docmost_zip s images
      = some [("document.md".data, utf8Encode (clean_markdown s))] := by
  have h1 : rewriteLinks s images = some (s, []) := by
    unfold rewriteLinks
    rw [subLinksF_nomatch images s 0 h]
    rfl
  refine ⟨h1, ?_⟩
  unfold create_docmost_zip
  rw [h1]
  simp [packZip]

/-- Witness for C6 at a concrete no-reference input with two supplied
records, both silently dropped. -/
theorem zero_refs_archive_witness :
    findImgLink "plain text with [a link](x) but  no image".data = none ∧
    (rewriteLinks "plain text with [a link](x) but  no image".data
        [⟨"p.png".data, "aGk=".data⟩, ⟨"q.jpg".data, "AAAA".data⟩] =
      some ("plain text with [a link](x) but  no image".data, []) ∧
    create_docmost_zip "plain text with [a link](x) but  no image".data
        [⟨"p.png".data, "aGk=".data⟩, ⟨"q.jpg".data, "AAAA".data⟩]
      = some [("document.md".data,
          utf8Encode (clean_markdown "plain text with [a link](x) but  no image".data))]) :=
  ⟨by decide, zero_refs_archive _ _ (by decide)⟩

/-- Claim C7: the packager produces the archive as exactly one document.md
entry holding the UTF-8 markdown, written first, followed by one
images/name entry per mapping item in the insertion order of the mapping, each
with the mapped bytes; document.md occurs exactly once. -/
theorem packZip_layout (md : List Char) (m : List Entry) :
    (packZip md m).length = m.length + 1 ∧
    (packZip md m).head? = some ("document.md".data, utf8Encode md) ∧
    (packZip md m).tail = m.map (fun e => ("images/".data ++ e.1, e.2)) ∧
    (packZip md m).countP (fun e => e.1 == "document.md".data) = 1 := by
  refine ⟨by simp [packZip], rfl, rfl, ?_⟩
  have hz : ∀ x : List Char, (("images/".data ++ x) == "document.md".data) = false := by
    intro x
    apply beq_eq_false_iff_ne.mpr
    intro hx
    have h0 : ("images/".data ++ x).head? = some 'i' := rfl
    rw [hx] at h0
    simp at h0
  have h1 : (m.map (fun e : Entry => ("images/".data ++ e.1, e.2))).countP
      (fun e => e.1 == "document.md".data) = 0 := by
    rw [List.countP_eq_zero]
    intro a ha
    obtain ⟨e, _, rfl⟩ := List.mem_map.mp ha
    simp [hz e.1]
  simp [packZip, List.countP_cons, h1]

theorem rewriteLinks_single (images : List ImageRecord) (a t suf : List Char)
    (h1 : '\n' ∉ a) (h2 : ']' ∉ a) (h3 : '\n' ∉ t) (h4 : ')' ∉ t)
    (hsuf : findImgLink suf = none) :
    rewriteLinks (imgRef a t suf) images
      = match replace_link images 0 a with
        | none => none
        | some (rep, _, es) => some (rep ++ suf, es) := by
  have hf : findImgLink (imgRef a t suf) = some ([], a, t, suf) :=
    findImgLink_complete a t suf h1 h2 h3 h4
  unfold rewriteLinks
  generalize (imgRef a t suf).length = n
  simp only [subLinksF, hf, hsuf]
  cases hr : replace_link images 0 a with
  | none => simp
  | some p =>
    obtain ⟨rep, idx', es⟩ := p
    simp [subLinksF_nomatch images suf idx' hsuf]

theorem extOf_no_dot (f : List Char) (hdot : '.' ∉ f) : extOf f = f := by
  have hs : splitDot f = [f] := by
    induction f with
    | nil => rfl
    | cons c cs ih =>
      simp only [List.mem_cons, not_or] at hdot
      have hc : c ≠ '.' := fun h => hdot.1 h.symm
      simp [splitDot, hc, ih hdot.2]
  simp [extOf, hs]

theorem imageName_one (f : List Char) : imageName 1 f = "image_001.".data ++ f := rfl

/-- Claim C1 counterexample: a markdown input whose single reference targets
an inline base64 payload of declared type image/png; the rewriter does not
decode the payload and store it as images/image_001.png as claimed, but
treats the reference positionally — with no supplied records it becomes the
MISSING_IMAGE sentinel and nothing is stored. -/
theorem mode_a_unimplemented_cex :
    b64decode "aGk=".data = some [104, 105] ∧
    rewriteLinks "![a](data:image/png;base64,aGk=)".data []
      = some ("![a](MISSING_IMAGE)".data, []) ∧
    (("![a](MISSING_IMAGE)".data, ([] : List Entry))
      ≠ ("![a](images/image_001.png)".data,
          ([("image_001.png".data, [104, 105])] : List Entry))) :=
  ⟨by decide, by decide, by decide⟩

/-- Claim C1 amended: the rewriter implements no inline (Mode A) resolution;
a reference whose target is a data:image/png;base64 payload is treated like
any other bracket reference: the target is discarded and the next supplied
record (when one exists) is consumed positionally, the canonical name taking
its extension from the filename of the record, the stored bytes being the decoded content of the record — never the inline payload. -/
theorem mode_a_unimplemented (alt payload suf : List Char) (r : ImageRecord) (bs : List Nat)
    (h1 : '\n' ∉ alt) (h2 : ']' ∉ alt) (h3 : '\n' ∉ payload) (h4 : ')' ∉ payload)
    (hsuf : findImgLink suf = none)
    (hdec : b64decode r.content_base64 = some bs) :
    rewriteLinks (imgRef alt ("data:image/png;base64,".data ++ payload) suf) [r]
      = some (imgRef alt ("images/".data ++ imageName 1 (extOf r.filename)) suf,
          [(imageName 1 (extOf r.filename), bs)]) := by
  have h3' : '\n' ∉ "data:image/png;base64,".data ++ payload := by
    simp only [List.mem_append, not_or]
    exact ⟨by decide, h3⟩
  have h4' : ')' ∉ "data:image/png;base64,".data ++ payload := by
    simp only [List.mem_append, not_or]
    exact ⟨by decide, h4⟩
  rw [rewriteLinks_single [r] alt _ suf h1 h2 h3' h4' hsuf]
  rw [replace_link_consume [r] 0 alt (by simp) bs (by simpa using hdec)]
  simp [imgRef]

/-- Witness for the amended C1: concrete inline payload "aGk=" (decoding to
"hi") is ignored; the bytes [0,0,0] of the supplied record are stored instead. -/
theorem mode_a_unimplemented_witness :
    ('\n' ∉ "a".data ∧ ']' ∉ "a".data ∧ '\n' ∉ "aGk=".data ∧ ')' ∉ "aGk=".data ∧
      findImgLink " tail".data = none ∧
      b64decode (ImageRecord.mk "p.png".data "AAAA".data).content_base64 = some [0, 0, 0]) ∧
    rewriteLinks (imgRef "a".data ("data:image/png;base64,".data ++ "aGk=".data) " tail".data)
        [ImageRecord.mk "p.png".data "AAAA".data]
      = some (imgRef "a".data
            ("images/".data ++ imageName 1 (extOf (ImageRecord.mk "p.png".data "AAAA".data).filename))
            " tail".data,
          [(imageName 1 (extOf (ImageRecord.mk "p.png".data "AAAA".data).filename), [0, 0, 0])]) :=
  ⟨⟨by decide, by decide, by decide, by decide, by decide, by decide⟩,
    mode_a_unimplemented "a".data "aGk=".data " tail".data _ [0, 0, 0]
      (by decide) (by decide) (by decide) (by decide) (by decide) (by decide)⟩

/-- Claim C2 counterexample: a reference with a malformed inline payload
("AB" fails base64 decoding) is not replaced by MISSING_IMAGE when a record
is supplied: the record is consumed and an image entry IS added for that
reference, contradicting the claim. -/
theorem malformed_inline_cex :
    b64decode "AB".data = none ∧
    rewriteLinks "![a](data:image/png;base64,AB)".data [⟨"p.png".data, "aGk=".data⟩]
      = some ("![a](images/image_001.png)".data, [("image_001.png".data, [104, 105])]) ∧
    "![a](images/image_001.png)".data ≠ "![a](MISSING_IMAGE)".data ∧
    ([("image_001.png".data, [104, 105])] : List Entry) ≠ [] :=
  ⟨by decide, by decide, by decide, by decide⟩

/-- Claim C2 amended: inline payloads are never decoded, so a malformed
payload cannot raise; the reference is resolved positionally, and when the
supplied-record cursor is exhausted it is rewritten to MISSING_IMAGE with
its alt text preserved, no image entry added, and the rest of the document
left to normal processing. -/
theorem malformed_inline_missing (alt t suf : List Char)
    (h1 : '\n' ∉ alt) (h2 : ']' ∉ alt) (h3 : '\n' ∉ t) (h4 : ')' ∉ t)
    (hsuf : findImgLink suf = none) :
    rewriteLinks (imgRef alt t suf) [] = some (imgRef alt "MISSING_IMAGE".data suf, []) := by
  rw [rewriteLinks_single [] alt t suf h1 h2 h3 h4 hsuf]
  rw [replace_link_exhausted [] 0 alt (by simp)]
  simp [imgRef]

/-- Witness for the amended C2 at the malformed payload "AB" with trailing
text, which is preserved unchanged. -/
theorem malformed_inline_missing_witness :
    ('\n' ∉ "a".data ∧ ']' ∉ "a".data ∧
      '\n' ∉ "data:image/png;base64,AB".data ∧ ')' ∉ "data:image/png;base64,AB".data ∧
      findImgLink "\nrest of document".data = none ∧
      b64decode "AB".data = none) ∧
    rewriteLinks (imgRef "a".data "data:image/png;base64,AB".data "\nrest of document".data) []
      = some (imgRef "a".data "MISSING_IMAGE".data "\nrest of document".data, []) :=
  ⟨⟨by decide, by decide, by decide, by decide, by decide, by decide⟩,
    malformed_inline_missing "a".data "data:image/png;base64,AB".data "\nrest of document".data
      (by decide) (by decide) (by decide) (by decide) (by decide)⟩

/-- Claim C9: a consumed record whose filename contains no dot gets the
entire filename as its extension (split(dot)[-1] of a dotless string is the
string itself), giving canonical name image_001.{filename}, without any
default extension or error. -/
theorem dotless_filename_ext (f c : List Char) (bs : List Nat) (alt t suf : List Char)
    (hdot : '.' ∉ f) (hdec : b64decode c = some bs)
    (h1 : '\n' ∉ alt) (h2 : ']' ∉ alt) (h3 : '\n' ∉ t) (h4 : ')' ∉ t)
    (hsuf : findImgLink suf = none) :
    extOf f = f ∧
    rewriteLinks (imgRef alt t suf) [⟨f, c⟩]
      = some (imgRef alt ("images/image_001.".data ++ f) suf,
          [("image_001.".data ++ f, bs)]) := by
  refine ⟨extOf_no_dot f hdot, ?_⟩
  rw [rewriteLinks_single [⟨f, c⟩] alt t suf h1 h2 h3 h4 hsuf]
  rw [replace_link_consume [⟨f, c⟩] 0 alt (by simp) bs (by simpa using hdec)]
  simp only [List.get_cons_zero]
  simp [imgRef, extOf_no_dot f hdot, imageName_one]

/-- Witness for C9 at filename "imgfile" (no dot): the canonical name is
image_001.imgfile. -/
theorem dotless_filename_ext_witness :
    ('.' ∉ "imgfile".data ∧ b64decode "aGk=".data = some [104, 105] ∧
      '\n' ∉ "a".data ∧ ']' ∉ "a".data ∧ '\n' ∉ "x".data ∧ ')' ∉ "x".data ∧
      findImgLink "".data = none) ∧
    (extOf "imgfile".data = "imgfile".data ∧
    rewriteLinks (imgRef "a".data "x".data "".data) [⟨"imgfile".data, "aGk=".data⟩]
      = some (imgRef "a".data ("images/image_001.".data ++ "imgfile".data) "".data,
          [("image_001.".data ++ "imgfile".data, [104, 105])])) :=
  ⟨⟨by decide, by decide, by decide, by decide, by decide, by decide, by decide⟩,
    dotless_filename_ext "imgfile".data "aGk=".data [104, 105] "a".data "x".data "".data
      (by decide) (by decide) (by decide) (by decide) (by decide) (by decide) (by decide)⟩

/-- Three consecutive newlines occur somewhere in the text (the redex of the
blank-line collapse). -/
def hasNl3 : List Char → Bool
  | [] => false
  | [_] => false
  | [_, _] => false
  | a :: b :: c :: r => ((a == '\n') && (b == '\n') && (c == '\n')) || hasNl3 (b :: c :: r)

theorem hasNl3_cons (x : Char) (l : List Char) :
    hasNl3 (x :: l)
      = (((x == '\n') && (l.head? == some '\n')) && (l.tail.head? == some '\n')
          || hasNl3 l) := by
  rcases l with _ | ⟨y, _ | ⟨z, r⟩⟩ <;> simp [hasNl3, Bool.and_assoc]

theorem hasNl3_append_right (a b : List Char) (h : hasNl3 (a ++ b) = false) :
    hasNl3 b = false := by
  induction a with
  | nil => simpa using h
  | cons x a' ih =>
    rw [List.cons_append, hasNl3_cons, Bool.or_eq_false_iff] at h
    exact ih h.2

theorem hasNl3_append_left (a b : List Char) (h : hasNl3 (a ++ b) = false) :
    hasNl3 a = false := by
  induction a with
  | nil => rfl
  | cons x a' ih =>
    rw [List.cons_append, hasNl3_cons, Bool.or_eq_false_iff] at h
    rw [hasNl3_cons, Bool.or_eq_false_iff]
    refine ⟨?_, ih h.2⟩
    by_contra hg
    rw [Bool.not_eq_false, Bool.and_eq_true, Bool.and_eq_true] at hg
    obtain ⟨⟨hx, hh⟩, ht⟩ := hg
    rcases a' with _ | ⟨y, a''⟩
    · simp at hh
    · simp only [List.head?_cons, beq_iff_eq, Option.some.injEq] at hh
      rcases a'' with _ | ⟨z, a3⟩
      · simp at ht
      · simp only [List.tail_cons, List.head?_cons, beq_iff_eq, Option.some.injEq] at ht
        subst hh; subst ht
        simp at h
        exact absurd (by simpa using hx) (by simp [h.1])

theorem hasNl3_collapseGo : ∀ (s : List Char) (n : Nat), hasNl3 (collapseGo n s) = false := by
  intro s
  induction s with
  | nil =>
    intro n
    have h : min n 2 = 0 ∨ min n 2 = 1 ∨ min n 2 = 2 := by omega
    rcases h with h | h | h <;> simp [collapseGo, h] <;> decide
  | cons c cs ih =>
    intro n
    by_cases hc : c = '\n'
    · simp [collapseGo, hc, ih]
    · have base : hasNl3 (c :: collapseGo 0 cs) = false := by
        rw [hasNl3_cons, Bool.or_eq_false_iff]
        exact ⟨by simp [hc], ih 0⟩
      have one : hasNl3 ('\n' :: c :: collapseGo 0 cs) = false := by
        rw [hasNl3_cons, Bool.or_eq_false_iff]
        exact ⟨by simp [hc], base⟩
      have two : hasNl3 ('\n' :: '\n' :: c :: collapseGo 0 cs) = false := by
        rw [hasNl3_cons, Bool.or_eq_false_iff]
        exact ⟨by simp [hc], one⟩
      have h : min n 2 = 0 ∨ min n 2 = 1 ∨ min n 2 = 2 := by omega
      rcases h with h | h | h <;>
        simp only [collapseGo, if_neg hc, h] <;>
        simpa using (by assumption : hasNl3 _ = false)

theorem collapseGo_fix : ∀ (s : List Char) (n : Nat), n ≤ 2 →
    hasNl3 (List.replicate n '\n' ++ s) = false →
    collapseGo n s = List.replicate n '\n' ++ s := by
  intro s
  induction s with
  | nil =>
    intro n hn _
    simp [collapseGo, Nat.min_eq_left hn]
  | cons c cs ih =>
    intro n hn h
    by_cases hc : c = '\n'
    · subst hc
      have hrw : List.replicate n '\n' ++ '\n' :: cs = List.replicate (n + 1) '\n' ++ cs := by
        rw [List.replicate_succ' n '\n', List.append_assoc, List.singleton_append]
      have hn1 : n ≤ 1 := by
        by_contra hgt
        have h2 : n = 2 := by omega
        subst h2
        simp [List.replicate, hasNl3] at h
      rw [hrw] at h ⊢
      simp only [collapseGo, if_pos rfl]
      exact ih (n + 1) (by omega) h
    · have hcs : hasNl3 cs = false := by
        have hrw : List.replicate n '\n' ++ c :: cs = (List.replicate n '\n' ++ [c]) ++ cs := by
          simp
        rw [hrw] at h
        exact hasNl3_append_right _ _ h
      simp only [collapseGo, if_neg hc, Nat.min_eq_left hn]
      rw [ih 0 (by omega) (by simpa using hcs)]
      simp

theorem collapseNl_of_no3 (s : List Char) (h : hasNl3 s = false) : collapseNl s = s := by
  unfold collapseNl
  rw [collapseGo_fix s 0 (by omega) (by simpa using h)]
  simp

theorem hd_dropWhile_false (p : Char → Bool) :
    ∀ (l : List Char) (c : Char), (l.dropWhile p).head? = some c → p c = false := by
  intro l
  induction l with
  | nil => intro c h; simp at h
  | cons a l ih =>
    intro c h
    by_cases ha : p a
    · rw [List.dropWhile_cons, if_pos ha] at h
      exact ih c h
    · rw [List.dropWhile_cons, if_neg ha] at h
      simp only [List.head?_cons, Option.some.injEq] at h
      subst h
      simpa using ha

theorem dropWhile_dropWhile (p : Char → Bool) (l : List Char) :
    List.dropWhile p (List.dropWhile p l) = List.dropWhile p l := by
  cases h : List.dropWhile p l with
  | nil => simp
  | cons c r =>
    have hc : p c = false := hd_dropWhile_false p l c (by rw [h]; rfl)
    rw [List.dropWhile_cons, if_neg (by simp [hc])]

theorem dropWhile_eq_self_of_head (p : Char → Bool) (l : List Char)
    (h : ∀ c, l.head? = some c → p c = false) : List.dropWhile p l = l := by
  cases l with
  | nil => rfl
  | cons a l => rw [List.dropWhile_cons, if_neg (by simp [h a rfl])]

theorem pstrip_idem (s : List Char) : pstrip (pstrip s) = pstrip s := by
  unfold pstrip
  have stepA : ((s.dropWhile pyWs).reverse.dropWhile pyWs).reverse.dropWhile pyWs
      = ((s.dropWhile pyWs).reverse.dropWhile pyWs).reverse := by
    apply dropWhile_eq_self_of_head
    intro c hc
    rw [List.head?_reverse] at hc
    rcases hw : (s.dropWhile pyWs).reverse.dropWhile pyWs with _ | ⟨y, w'⟩
    · rw [hw] at hc; simp at hc
    · rw [hw] at hc
      have hsplit : (s.dropWhile pyWs).reverse
          = (s.dropWhile pyWs).reverse.takeWhile pyWs ++ (y :: w') := by
        rw [← hw, List.takeWhile_append_dropWhile]
      have hlast : (s.dropWhile pyWs).reverse.getLast? = some c := by
        rw [hsplit, List.getLast?_append, hc]
        rfl
      rw [List.getLast?_reverse] at hlast
      exact hd_dropWhile_false pyWs s c hlast
  rw [stepA, List.reverse_reverse, dropWhile_dropWhile]

theorem hasNl3_pstrip (l : List Char) (h : hasNl3 l = false) :
    hasNl3 (pstrip l) = false := by
  unfold pstrip
  have hu : hasNl3 (l.dropWhile pyWs) = false := by
    apply hasNl3_append_right (l.takeWhile pyWs)
    rw [List.takeWhile_append_dropWhile]
    exact h
  have hsplit : (l.dropWhile pyWs).reverse
      = (l.dropWhile pyWs).reverse.takeWhile pyWs
        ++ (l.dropWhile pyWs).reverse.dropWhile pyWs := by
    rw [List.takeWhile_append_dropWhile]
  have hu2 : l.dropWhile pyWs
      = ((l.dropWhile pyWs).reverse.dropWhile pyWs).reverse
        ++ ((l.dropWhile pyWs).reverse.takeWhile pyWs).reverse := by
    conv_lhs => rw [← List.reverse_reverse (l.dropWhile pyWs), hsplit]
    rw [List.reverse_append]
  rw [hu2] at hu
  exact hasNl3_append_left _ _ hu

theorem mem_collapseGo : ∀ (s : List Char) (n : Nat) (c : Char),
    c ∈ collapseGo n s → c = '\n' ∨ c ∈ s := by
  intro s
  induction s with
  | nil =>
    intro n c h
    simp only [collapseGo] at h
    left
    exact List.eq_of_mem_replicate h
  | cons d cs ih =>
    intro n c h
    by_cases hd : d = '\n'
    · rw [collapseGo, if_pos hd] at h
      rcases ih (n + 1) c h with h' | h'
      · exact Or.inl h'
      · exact Or.inr (List.mem_cons_of_mem d h')
    · rw [collapseGo, if_neg hd] at h
      rcases List.mem_append.mp h with h' | h'
      · exact Or.inl (List.eq_of_mem_replicate h')
      · rcases List.mem_cons.mp h' with h'' | h''
        · exact Or.inr (h'' ▸ List.mem_cons_self d cs)
        · rcases ih 0 c h'' with h3 | h3
          · exact Or.inl h3
          · exact Or.inr (List.mem_cons_of_mem d h3)

theorem mem_pstrip (s : List Char) (c : Char) (h : c ∈ pstrip s) : c ∈ s := by
  unfold pstrip at h
  rw [List.mem_reverse] at h
  have h1 := (List.dropWhile_sublist pyWs).mem h
  rw [List.mem_reverse] at h1
  exact (List.dropWhile_sublist pyWs).mem h1

theorem dropFrontmatter_no_dash (s : List Char) (h : '-' ∉ s) : dropFrontmatter s = s := by
  rw [dropFrontmatter, if_neg]
  intro hc
  apply h
  apply List.take_subset 4 s
  rw [hc]
  simp

theorem fhGo_no_hash : ∀ s : List Char, '#' ∉ s → fhGo none s = s ∧ fhGo (some 0) s = s := by
  intro s
  induction s with
  | nil => exact fun _ => ⟨rfl, by simp [fhGo, fhEnd]⟩
  | cons c cs ih =>
    intro h
    simp only [List.mem_cons, not_or] at h
    have hc : c ≠ '#' := fun hx => h.1 hx.symm
    obtain ⟨ih1, ih2⟩ := ih h.2
    by_cases hn : c = '\n'
    · constructor <;> simp [fhGo, hc, hn, ih2]
    · constructor <;> simp [fhGo, hc, hn, ih1]

theorem shGo_no_lt : ∀ s : List Char, '<' ∉ s → shGo none s = s := by
  intro s
  induction s with
  | nil => exact fun _ => rfl
  | cons c cs ih =>
    intro h
    simp only [List.mem_cons, not_or] at h
    have hc : c ≠ '<' := fun hx => h.1 hx.symm
    simp [shGo, hc, ih h.2]

theorem clean_markdown_plain (s : List Char)
    (h1 : '#' ∉ s) (h2 : '<' ∉ s) (h3 : '-' ∉ s) :
    clean_markdown s = pstrip (collapseNl s) := by
  have hm : ∀ c : Char, c ∈ collapseNl s → c = '\n' ∨ c ∈ s := fun c => mem_collapseGo s 0 c
  have hfh : '#' ∉ collapseNl s := by
    intro hmem
    rcases hm '#' hmem with h | h
    · exact absurd h (by decide)
    · exact h1 h
  have hsh : '<' ∉ collapseNl s := by
    intro hmem
    rcases hm '<' hmem with h | h
    · exact absurd h (by decide)
    · exact h2 h
  unfold clean_markdown
  rw [dropFrontmatter_no_dash s h3]
  unfold fixHeadings stripHtml
  rw [(fhGo_no_hash (collapseNl s) hfh).2, shGo_no_lt (collapseNl s) hsh]

/-- Claim C3 counterexample: the sanitizer is not idempotent. On " #x" the
final trim exposes an unspaced heading at line start: one application gives
"#x", a second gives "# x". -/
theorem clean_markdown_not_idem_cex :
    clean_markdown (clean_markdown " #x".data) ≠ clean_markdown " #x".data ∧
    clean_markdown " #x".data = "#x".data ∧
    clean_markdown (clean_markdown " #x".data) = "# x".data :=
  ⟨by decide, by decide, by decide⟩

/-- Claim C3 amended: clean_markdown is not idempotent in general (the final
trim can expose an unspaced heading or a frontmatter fence, tag stripping can
expose either at line start, and the backtracking heading fix itself grows
marker-only or marker-space headings on each pass); it is idempotent on
inputs containing no '#', no '<', and no '-' characters, where it reduces to
blank-line collapse followed by trim. -/
theorem clean_markdown_idem_restricted (s : List Char)
    (h1 : '#' ∉ s) (h2 : '<' ∉ s) (h3 : '-' ∉ s) :
    clean_markdown (clean_markdown s) = clean_markdown s := by
  rw [clean_markdown_plain s h1 h2 h3]
  have hm : ∀ c : Char, c ∈ pstrip (collapseNl s) → c = '\n' ∨ c ∈ s := by
    intro c hc
    exact mem_collapseGo s 0 c (mem_pstrip _ c hc)
  have k1 : '#' ∉ pstrip (collapseNl s) := by
    intro hmem
    rcases hm '#' hmem with h | h
    · exact absurd h (by decide)
    · exact h1 h
  have k2 : '<' ∉ pstrip (collapseNl s) := by
    intro hmem
    rcases hm '<' hmem with h | h
    · exact absurd h (by decide)
    · exact h2 h
  have k3 : '-' ∉ pstrip (collapseNl s) := by
    intro hmem
    rcases hm '-' hmem with h | h
    · exact absurd h (by decide)
    · exact h3 h
  rw [clean_markdown_plain _ k1 k2 k3]
  rw [collapseNl_of_no3 _ (hasNl3_pstrip _
    (show hasNl3 (collapseNl s) = false from hasNl3_collapseGo s 0))]
  exact pstrip_idem _

/-- Witness for the amended C3 at a concrete input without '#', '<', '-'. -/
theorem clean_markdown_idem_restricted_witness :
    ('#' ∉ "  some text\n\n\n\n\nwith breaks \n ".data ∧
      '<' ∉ "  some text\n\n\n\n\nwith breaks \n ".data ∧
      '-' ∉ "  some text\n\n\n\n\nwith breaks \n ".data) ∧
    clean_markdown (clean_markdown "  some text\n\n\n\n\nwith breaks \n ".data)
      = clean_markdown "  some text\n\n\n\n\nwith breaks \n ".data :=
  ⟨⟨by decide, by decide, by decide⟩,
    clean_markdown_idem_restricted "  some text\n\n\n\n\nwith breaks \n ".data
      (by decide) (by decide) (by decide)⟩

theorem replace_link_entries (images : List ImageRecord) (idx : Nat) (alt : List Char)
    (rep : List Char) (idx2 : Nat) (es : List Entry)
    (h : replace_link images idx alt = some (rep, idx2, es)) :
    ∀ e ∈ es, ("images/".data ++ e.1) <:+: rep := by
  by_cases hlt : idx < images.length
  · rw [replace_link, dif_pos hlt] at h
    simp only [List.get_eq_getElem] at h
    cases hdec : b64decode (images[idx]).content_base64 with
    | none => rw [hdec] at h; simp at h
    | some bs =>
      rw [hdec] at h
      simp only [Option.some.injEq, Prod.mk.injEq] at h
      obtain ⟨hrep, _, hes⟩ := h
      intro e he
      rw [← hes] at he
      simp only [List.mem_singleton] at he
      subst he
      rw [← hrep]
      refine ⟨'!' :: '[' :: (alt ++ [']', '(']), [')'], ?_⟩
      simp
  · rw [replace_link, dif_neg hlt] at h
    simp only [Option.some.injEq, Prod.mk.injEq] at h
    obtain ⟨_, _, hes⟩ := h
    rw [← hes]
    intro e he
    simp at he

theorem subLinksF_entries_referenced (images : List ImageRecord) :
    ∀ (fuel : Nat) (s : List Char) (idx : Nat) (md : List Char) (idx' : Nat)
      (es : List Entry),
    subLinksF images fuel s idx = some (md, idx', es) →
    ∀ e ∈ es, ("images/".data ++ e.1) <:+: md := by
  intro fuel
  induction fuel with
  | zero =>
    intro s idx md idx' es h
    simp only [subLinksF, Option.some.injEq, Prod.mk.injEq] at h
    obtain ⟨_, _, hes⟩ := h
    rw [← hes]
    intro e he
    simp at he
  | succ fuel ih =>
    intro s idx md idx' es h
    cases hf : findImgLink s with
    | none =>
      rw [subLinksF, hf] at h
      simp only [Option.some.injEq, Prod.mk.injEq] at h
      obtain ⟨_, _, hes⟩ := h
      rw [← hes]
      intro e he
      simp at he
    | some m =>
      obtain ⟨pre, alt, t, rest⟩ := m
      rw [subLinksF] at h
      simp only [hf] at h
      cases hr : replace_link images idx alt with
      | none => simp [hr] at h
      | some p =>
        obtain ⟨rep, idx2, es1⟩ := p
        simp only [hr] at h
        cases hs : subLinksF images fuel rest idx2 with
        | none => simp [hs] at h
        | some q =>
          obtain ⟨md2, idx3, es2⟩ := q
          simp only [hs, Option.map_some', Option.some.injEq, Prod.mk.injEq] at h
          obtain ⟨hmd, _, hes⟩ := h
          intro e he
          rw [← hes] at he
          rcases List.mem_append.mp he with h1 | h2
          · have hin := replace_link_entries images idx alt rep idx2 es1 hr e h1
            rw [← hmd]
            obtain ⟨u, v, huv⟩ := hin
            exact ⟨pre ++ u, v ++ md2, by rw [← huv]; simp⟩
          · have hin := ih rest idx2 md2 idx3 es2 hs e h2
            rw [← hmd]
            exact hin.trans ((List.suffix_append (pre ++ rep) md2).isInfix)

/-- Claim C5 counterexample: a reference sitting inside a frontmatter block
is resolved and its image packaged, but the sanitizer then strips the whole
block from document.md, leaving the packaged entry images/image_001.png
referenced by nothing: the final document is just "rest". -/
theorem orphan_image_cex :
    create_docmost_zip "---\n![a](x)\n---\nrest".data [⟨"p.png".data, "aGk=".data⟩]
      = some [("document.md".data, utf8Encode "rest".data),
          ("images/image_001.png".data, [104, 105])] ∧
    ¬ ("image_001.png".data <:+: "rest".data) :=
  ⟨by decide, by decide⟩

/-- Claim C5 amended: the no-orphan invariant holds at the rewriting stage:
every entry of the image mapping produced by the reference rewriter is
referenced in the rewritten markdown (images/{canonical_name} occurs in it).
The sanitizer that runs afterwards can delete such a reference (frontmatter
or tag stripping), so the invariant is not preserved into the final
document.md. -/
theorem rewrite_entries_referenced (s : List Char) (images : List ImageRecord)
    (md : List Char) (es : List Entry)
    (h : rewriteLinks s images = some (md, es)) :
    ∀ e ∈ es, ("images/".data ++ e.1) <:+: md := by
  unfold rewriteLinks at h
  rw [Option.map_eq_some'] at h
  obtain ⟨⟨md0, idx0, es0⟩, hsub, heq⟩ := h
  simp only [Prod.mk.injEq] at heq
  obtain ⟨rfl, rfl⟩ := heq
  exact subLinksF_entries_referenced images (s.length + 1) s 0 md0 idx0 es0 hsub

/-- Witness for the amended C5 at a two-reference input with one record. -/
theorem rewrite_entries_referenced_witness :
    rewriteLinks "go ![a](x) then ![b](y)".data [⟨"p.png".data, "aGk=".data⟩]
      = some ("go ![a](images/image_001.png) then ![b](MISSING_IMAGE)".data,
          [("image_001.png".data, [104, 105])]) ∧
    ∀ e ∈ ([("image_001.png".data, [104, 105])] : List Entry),
      ("images/".data ++ e.1) <:+:
        "go ![a](images/image_001.png) then ![b](MISSING_IMAGE)".data :=
  ⟨by decide,
    rewrite_entries_referenced "go ![a](x) then ![b](y)".data
      [⟨"p.png".data, "aGk=".data⟩] _ _ (by decide)⟩

theorem subLinksF_fail (images : List ImageRecord) :
    ∀ (fuel : Nat) (s : List Char) (idx i : Nat),
    i < (scanLinksF fuel s).1.length → idx + i < images.length →
    b64decode (images.getD (idx + i) ⟨[], []⟩).content_base64 = none →
    subLinksF images fuel s idx = none := by
  intro fuel
  induction fuel with
  | zero =>
    intro s idx i hscan _ _
    simp [scanLinksF] at hscan
  | succ fuel ih =>
    intro s idx i hscan hlen hbad
    cases hf : findImgLink s with
    | none =>
      rw [scanLinksF] at hscan
      simp [hf] at hscan
    | some m =>
      obtain ⟨pre, alt, t, rest⟩ := m
      rw [scanLinksF] at hscan
      simp only [hf] at hscan
      have hidx : idx < images.length := by omega
      rw [subLinksF]
      simp only [hf]
      cases hdec : b64decode (images.get ⟨idx, hidx⟩).content_base64 with
      | none => rw [replace_link_fail images idx alt hidx hdec]
      | some bs =>
        rw [replace_link_consume images idx alt hidx bs hdec]
        cases i with
        | zero =>
          have : images.getD (idx + 0) ⟨[], []⟩ = images.get ⟨idx, hidx⟩ := by
            rw [List.getD_eq_getElem images _ (by omega), List.get_eq_getElem]
            simp
          rw [this] at hbad
          rw [hdec] at hbad
          cases hbad
        | succ i' =>
          have hrec : subLinksF images fuel rest (idx + 1) = none := by
            apply ih rest (idx + 1) i'
            · simp only [List.length_cons] at hscan
              omega
            · omega
            · have : idx + 1 + i' = idx + (i' + 1) := by omega
              rw [this]
              exact hbad
          simp [hrec]

/-- Claim C10: when a record that gets consumed by a reference has invalid
base64 content (for example incorrect padding), create_docmost_zip raises
(none): no archive is produced, no MISSING_IMAGE recovery happens, and no
partial result is returned. -/
theorem invalid_base64_raises (s : List Char) (images : List ImageRecord) (i : Nat)
    (hi : i < images.length) (hr : i < (scanLinks s).1.length)
    (hbad : b64decode (images.get ⟨i, hi⟩).content_base64 = none) :
    create_docmost_zip s images = none := by
  have hbad' : b64decode (images.getD (0 + i) ⟨[], []⟩).content_base64 = none := by
    rw [List.getD_eq_getElem images _ (by omega)]
    rw [List.get_eq_getElem] at hbad
    simpa using hbad
  have hsub : subLinksF images (s.length + 1) s 0 = none :=
    subLinksF_fail images (s.length + 1) s 0 i hr (by omega) hbad'
  unfold create_docmost_zip rewriteLinks
  rw [hsub]
  rfl

/-- Witness for C10: two references, the second consumed record has content
"AB" (incorrect padding), so the whole conversion aborts. -/
theorem invalid_base64_raises_witness :
    (1 < ([⟨"p.png".data, "aGk=".data⟩, ⟨"q.png".data, "AB".data⟩] : List ImageRecord).length ∧
      1 < (scanLinks "![a](x) and ![b](y)".data).1.length ∧
      b64decode "AB".data = none) ∧
    create_docmost_zip "![a](x) and ![b](y)".data
      [⟨"p.png".data, "aGk=".data⟩, ⟨"q.png".data, "AB".data⟩] = none :=
  ⟨⟨by decide, by decide, by decide⟩,
    invalid_base64_raises "![a](x) and ![b](y)".data
      [⟨"p.png".data, "aGk=".data⟩, ⟨"q.png".data, "AB".data⟩] 1
      (by decide) (by decide) (by decide)⟩

theorem enumFrom_exhausted_out (images : List ImageRecord) :
    ∀ (segs : List (List Char × List Char × List Char)) (i j : Nat),
    images.length ≤ i → images.length ≤ j →
    (List.map (mkRefOut images) (List.enumFrom i segs)).flatten
      = (List.map (mkRefOut images) (List.enumFrom j segs)).flatten := by
  intro segs
  induction segs with
  | nil => intro i j _ _; rfl
  | cons seg segs' ih =>
    intro i j hi hj
    simp only [List.enumFrom_cons, List.map_cons, List.flatten_cons]
    rw [ih (i + 1) (j + 1) (by omega) (by omega)]
    congr 1
    unfold mkRefOut linkTarget
    rw [dif_neg (by omega), dif_neg (by omega)]

theorem subLinksF_spec (images : List ImageRecord)
    (hdec : ∀ r ∈ images, (b64decode r.content_base64).isSome) :
    ∀ (fuel : Nat) (s : List Char) (idx : Nat),
    subLinksF images fuel s idx
      = some ((((scanLinksF fuel s).1.enumFrom idx).map (mkRefOut images)).flatten
            ++ (scanLinksF fuel s).2,
          idx + min (scanLinksF fuel s).1.length (images.length - idx),
          (List.range' idx (min (scanLinksF fuel s).1.length (images.length - idx))).map
            (entOf images)) := by
  intro fuel
  induction fuel with
  | zero =>
    intro s idx
    simp [subLinksF, scanLinksF]
  | succ fuel ih =>
    intro s idx
    cases hf : findImgLink s with
    | none =>
      rw [subLinksF, scanLinksF]
      simp [hf]
    | some m =>
      obtain ⟨pre, alt, t, rest⟩ := m
      rw [subLinksF, scanLinksF]
      simp only [hf]
      by_cases hlt : idx < images.length
      · have hsome := hdec _ (List.get_mem images idx hlt)
        obtain ⟨bs, hbs⟩ := Option.isSome_iff_exists.mp hsome
        rw [replace_link_consume images idx alt hlt bs hbs]
        simp only [ih rest (idx + 1), Option.map_some']
        have hget : images.getD idx ⟨[], []⟩ = images.get ⟨idx, hlt⟩ := by
          rw [List.getD_eq_getElem images _ hlt, List.get_eq_getElem]
        have hent : entOf images idx
            = (imageName (idx + 1) (extOf (images.get ⟨idx, hlt⟩).filename), bs) := by
          unfold entOf
          rw [hget, hbs]
          rfl
        have hmin : min ((scanLinksF fuel rest).1.length + 1) (images.length - idx)
            = min ((scanLinksF fuel rest).1.length) (images.length - (idx + 1)) + 1 := by
          omega
        have harith : idx + (min ((scanLinksF fuel rest).1.length)
              (images.length - (idx + 1)) + 1)
            = idx + 1 + min ((scanLinksF fuel rest).1.length) (images.length - (idx + 1)) := by
          omega
        simp only [List.enumFrom_cons, List.map_cons, List.flatten_cons,
          List.length_cons, hmin, List.range'_succ, hent, harith]
        simp [mkRefOut, linkTarget, dif_pos hlt, imgRef]
      · push_neg at hlt
        rw [replace_link_exhausted images idx alt hlt]
        simp only [ih rest idx, Option.map_some']
        have h0 : images.length - idx = 0 := by omega
        simp only [List.enumFrom_cons, List.map_cons, List.flatten_cons,
          List.length_cons, h0, Nat.min_zero, List.range'_zero, List.map_nil, Nat.add_zero]
        simp [mkRefOut, linkTarget, dif_neg (by omega : ¬ idx < images.length), imgRef]
        exact enumFrom_exhausted_out images _ idx (idx + 1) hlt (by omega)

/-- Claim C4: in positional (Mode B) matching with k supplied records and
more than k references, the references are consumed left to right; the i-th
reference (0-based, i < k) is rewritten to images/image_{i+1:03d}.{ext}
with the extension from the filename suffix of record i, sequence numbers
strictly increasing and gap-free from 1; every later reference becomes
MISSING_IMAGE; and the mapping holds exactly those k canonical names with
the records' decoded bytes, in order. -/
theorem mode_b_positional (s : List Char) (images : List ImageRecord)
    (hk : images.length < (scanLinks s).1.length)
    (hdec : ∀ r ∈ images, (b64decode r.content_base64).isSome) :
    rewriteLinks s images
      = some ((((scanLinks s).1.enum.map (mkRefOut images)).flatten ++ (scanLinks s).2),
          (List.range images.length).map (entOf images)) := by
  have hk' : images.length < (scanLinksF (s.length + 1) s).1.length := hk
  have hmin : min ((scanLinksF (s.length + 1) s).1.length) (images.length - 0)
      = images.length := by omega
  unfold rewriteLinks
  simp only [subLinksF_spec images hdec (s.length + 1) s 0, Option.map_some', hmin]
  rw [List.range_eq_range']
  rfl

/-- Witness for C4: three references, two supplied records; the first two
become image_001.png and image_002, the third MISSING_IMAGE. -/
theorem mode_b_positional_witness :
    (([⟨"p.png".data, "aGk=".data⟩, ⟨"q".data, "AAAA".data⟩] : List ImageRecord).length
        < (scanLinks "![a](x) ![b](y) ![c](z)".data).1.length ∧
      ∀ r ∈ ([⟨"p.png".data, "aGk=".data⟩, ⟨"q".data, "AAAA".data⟩] : List ImageRecord),
        (b64decode r.content_base64).isSome) ∧
    rewriteLinks "![a](x) ![b](y) ![c](z)".data
        [⟨"p.png".data, "aGk=".data⟩, ⟨"q".data, "AAAA".data⟩]
      = some ((((scanLinks "![a](x) ![b](y) ![c](z)".data).1.enum.map
              (mkRefOut [⟨"p.png".data, "aGk=".data⟩, ⟨"q".data, "AAAA".data⟩])).flatten
            ++ (scanLinks "![a](x) ![b](y) ![c](z)".data).2),
          (List.range
              ([⟨"p.png".data, "aGk=".data⟩, ⟨"q".data, "AAAA".data⟩] : List ImageRecord).length).map
            (entOf [⟨"p.png".data, "aGk=".data⟩, ⟨"q".data, "AAAA".data⟩])) :=
  ⟨⟨by decide, by decide⟩,
    mode_b_positional "![a](x) ![b](y) ![c](z)".data
      [⟨"p.png".data, "aGk=".data⟩, ⟨"q".data, "AAAA".data⟩] (by decide) (by decide)⟩
